import Mathlib

/-!
Verification of the `files-to-prompt` traversal and configuration pipeline
(`files_to_prompt/cli.py`).

The Python source is shallowly embedded as executable Lean definitions:

* `fnmatch` embeds Python's `fnmatch.fnmatch` (shell-glob matching with
  `*`, `?`, `[seq]`, `[!seq]`; on POSIX `os.path.normcase` is the
  identity, so no case folding is applied);
* `should_ignore`, `read_gitignore`, `parse_gitignore` embed the
  ignore-rule helpers;
* `walkDir` embeds the `os.walk`-based directory branch of
  `process_path`, with the shared mutable `gitignore_rules` list modelled
  by explicit state passing (the returned first component);
* `process_path` / `cliLoop` embed the per-root-argument loop of `cli`;
* `find_project_config`, `merge_configs`, `resolve_ignore` embed the
  configuration layer;
* `resolve_sink_conflict` / `chooseSink` embed the output-sink selection.

File systems are modelled by the inductive `Entry` / `EntryList` tree; a
file's content is `Option String`, where `none` stands for bytes that
raise `UnicodeDecodeError` when decoded as UTF-8 text.  Output is
modelled as a list of `Event`s: `record` is one `print_path` call through
the active `writer`, `echoOut` is `click.echo(msg)` (standard output) and
`echoErr` is `click.echo(msg, err=True)` (standard error).

Recursive walks are implemented with an explicit fuel parameter so that
every definition is structurally recursive and kernel-computable; the
fuel supplied by the wrappers (`walkDir`, `fnmatch`) strictly exceeds the
maximal possible recursion depth (each recursive call decreases the
remaining work measure, see the comments at the definitions), so the
out-of-fuel branch is never taken on the supplied fuel.
-/

/-! ### Character-level string helpers

Python string primitives (`str.strip`, `str.startswith`, `str.endswith`,
`str.__lt__`, splitting into lines) are embedded as character-list
functions so that everything reduces inside the kernel.  Python compares
and orders strings by Unicode code points, as these functions do. -/

/-- Whitespace as stripped by `str.strip()` (ASCII subset; the repository
only ever strips spaces, tabs and line ends). -/
def isSpace (c : Char) : Bool :=
  c == ' ' || c == '\t' || c == '\r' || c == '\n' || c == '\x0b' || c == '\x0c'

def dropLeadingSpace : List Char → List Char
  | [] => []
  | c :: rest => if isSpace c then dropLeadingSpace rest else c :: rest

/-- Python `line.strip()`. -/
def pyStrip (s : String) : String :=
  String.mk (dropLeadingSpace (dropLeadingSpace s.data.reverse).reverse)

/-- Splitting file content into lines, as iterating over a Python text
file does (the trailing newline kept by Python is stripped away by
`strip()` before use, so it is dropped here directly). -/
def splitLinesAux : List Char → List Char → List String
  | [], acc => [String.mk acc.reverse]
  | '\n' :: rest, acc => String.mk acc.reverse :: splitLinesAux rest []
  | c :: rest, acc => splitLinesAux rest (c :: acc)

def splitLines (s : String) : List String :=
  splitLinesAux s.data []

/-- Python `line.startswith("#")`. -/
def startsWithHash (s : String) : Bool :=
  match s.data with
  | '#' :: _ => true
  | _ => false

/-- Python `name.startswith(".")` (the hidden-file test). -/
def startsWithDot (s : String) : Bool :=
  match s.data with
  | '.' :: _ => true
  | _ => false

/-- Python `a.startswith(pre)` on character lists. -/
def listStarts : List Char → List Char → Bool
  | [], _ => true
  | _ :: _, [] => false
  | a :: as, b :: bs => (a == b) && listStarts as bs

/-- Python `s.endswith(suffix)`: a raw suffix test on the characters. -/
def strEndsWith (s suffix : String) : Bool :=
  listStarts suffix.data.reverse s.data.reverse

/-- Lexicographic order on character lists by code point, Python's `<`
on strings. -/
def chListLt : List Char → List Char → Bool
  | [], [] => false
  | [], _ :: _ => true
  | _ :: _, [] => false
  | a :: as, b :: bs => if a.val < b.val then true else if b.val < a.val then false else chListLt as bs

/-- Python `a < b` on strings. -/
def strLt (a b : String) : Bool :=
  chListLt a.data b.data

/-! ### `fnmatch.fnmatch`

Embedding of CPython's `fnmatch.translate`/`match` semantics: `*` matches
any run (including empty), `?` exactly one character, `[seq]` a character
of the set, `[!seq]` a character outside it; a `[` with no closing `]` is
a literal `[`; a `]` directly after `[` or `[!` belongs to the set;
`x-y` inside a set is a code-point range, with `-` literal at either end.
Matching is anchored: the whole name must match. -/

/-- Scan up to the first `]`, returning the characters before it and the
remainder after it. -/
def spanUntilRB : List Char → Option (List Char × List Char)
  | [] => none
  | ']' :: rest => some ([], rest)
  | c :: rest =>
    match spanUntilRB rest with
    | some (s, r) => some (c :: s, r)
    | none => none

/-- Parse a bracket-set body after the optional `!` has been stripped: a
`]` in first position is a literal set member, then everything up to the
next `]` forms the set. -/
def bracketBody (neg : Bool) (body : List Char) : Option (Bool × List Char × List Char) :=
  match body with
  | ']' :: rest2 =>
    match spanUntilRB rest2 with
    | some (s, r) => some (neg, ']' :: s, r)
    | none => none
  | _ =>
    match spanUntilRB body with
    | some (s, r) => some (neg, s, r)
    | none => none

/-- Parse the bracket-set body that follows a `[`: returns the negation
flag, the set characters and the pattern remainder after the closing `]`,
or `none` when the bracket is unterminated. -/
def splitBracket : List Char → Option (Bool × List Char × List Char)
  | '!' :: body => bracketBody true body
  | ps => bracketBody false ps

/-- Membership of a character in a bracket set, with `x-y` ranges. -/
def matchSet : List Char → Char → Bool
  | [], _ => false
  | x :: '-' :: y :: rest, c => (x.val ≤ c.val && c.val ≤ y.val) || matchSet rest c
  | x :: rest, c => (x == c) || matchSet rest c

/-- Fueled glob matcher over (pattern, name) character lists.  Every
recursive call decreases `pattern.length + name.length`, so fuel
exceeding that sum is never exhausted. -/
def fnmatchFuel : Nat → List Char → List Char → Bool
  | 0, _, _ => false
  | _ + 1, [], s => s.isEmpty
  | f + 1, c0 :: ps, s =>
    if c0 = '*' then
      match s with
      | [] => fnmatchFuel f ps []
      | c :: s2 => fnmatchFuel f ps (c :: s2) || fnmatchFuel f ('*' :: ps) s2
    else if c0 = '?' then
      match s with
      | [] => false
      | _ :: s2 => fnmatchFuel f ps s2
    else if c0 = '[' then
      match s with
      | [] => false
      | c :: s2 =>
        match splitBracket ps with
        | some (neg, st, r) =>
          (if neg then !(matchSet st c) else matchSet st c) && fnmatchFuel f r s2
        | none => ('[' == c) && fnmatchFuel f ps s2
    else
      match s with
      | [] => false
      | c :: s2 => (c0 == c) && fnmatchFuel f ps s2

/-- Python `fnmatch.fnmatch(name, pattern)` (POSIX `normcase`, i.e. no
case folding). -/
def fnmatch (name pattern : String) : Bool :=
  fnmatchFuel (pattern.length + name.length + 1) pattern.data name.data

/-! ### File-system model -/

mutual
/-- A directory entry: a regular file with decoded content (`none` models
bytes that raise `UnicodeDecodeError`), or a subdirectory with its
children in `os.walk` listing order. -/
inductive Entry where
  | file (name : String) (content : Option String)
  | dir (name : String) (children : EntryList)
deriving DecidableEq

/-- A directory listing.  A dedicated mutual inductive (rather than
`List Entry`) keeps all recursions structural and kernel-computable. -/
inductive EntryList where
  | nil
  | cons (head : Entry) (tail : EntryList)
deriving DecidableEq
end

/-- The `files` component of one `os.walk` tuple: the plain files of the
listing, in listing order, with their content. -/
def filesOf : EntryList → List (String × Option String)
  | .nil => []
  | .cons (.file n c) es => (n, c) :: filesOf es
  | .cons (.dir _ _) es => filesOf es

/-- The `dirs` component of one `os.walk` tuple: the subdirectories of
the listing, in listing order, with their children. -/
def dirsOf : EntryList → List (String × EntryList)
  | .nil => []
  | .cons (.dir n cs) es => (n, cs) :: dirsOf es
  | .cons (.file _ _) es => dirsOf es

def elAppend : EntryList → EntryList → EntryList
  | .nil, b => b
  | .cons e es, b => .cons e (elAppend es b)

mutual
/-- Size measure of an entry; a file counts 1 whatever its content, so
the measure is invariant under content changes. -/
def eSize : Entry → Nat
  | .file _ _ => 1
  | .dir _ cs => 2 + lSize cs

/-- Size measure of a listing, used to provision walk fuel. -/
def lSize : EntryList → Nat
  | .nil => 0
  | .cons e es => eSize e + lSize es
end

/-! ### Ignore files -/

/-- The list comprehension in `read_gitignore`:
`[line.strip() for line in f if line.strip() and not line.startswith("#")]`
(note that the `#` test runs on the unstripped line, as in the source). -/
def parse_gitignore (content : String) : List String :=
  ((splitLines content).filter
      (fun line => (pyStrip line != "") && !(startsWithHash line))).map pyStrip

/-- `read_gitignore(path)`: read and parse `path/.gitignore` if that file
exists, else no rules.  (An undecodable `.gitignore` is treated as empty
here; the Python code would abort with an uncaught decode error, a case
no claim exercises.) -/
def read_gitignore (entries : EntryList) : List String :=
  match (filesOf entries).find? (fun f => f.1 == ".gitignore") with
  | some (_, some content) => parse_gitignore content
  | some (_, none) => []
  | none => []

/-- `should_ignore(path, gitignore_rules)`: a rule matches on the
basename, or, for a directory, on the basename with `/` appended. -/
def should_ignore (name : String) (isDir : Bool) (rules : List String) : Bool :=
  rules.any (fun rule => fnmatch name rule || (isDir && fnmatch (name ++ "/") rule))

/-! ### Options and output events -/

/-- The traversal-relevant options of `cli` after config merging. -/
structure Options where
  extensions : List String
  include_hidden : Bool
  ignore_files_only : Bool
  ignore_gitignore : Bool
  ignore_patterns : List String
deriving DecidableEq

/-- All flags off, no patterns, no extension filter: the CLI defaults. -/
def defaultOpts : Options :=
  Options.mk [] false false false []

/-- One observable output action of the program:
`record path content` is a `print_path(writer, path, content, ...)` call
(the primary content channel), `echoOut msg` is `click.echo(msg)`
(standard output) and `echoErr msg` is `click.echo(msg, err=True)`
(standard error). -/
inductive Event where
  | record (path : String) (content : String)
  | echoOut (msg : String)
  | echoErr (msg : String)
deriving DecidableEq

/-- The destination selected for the primary `writer` in `cli`. -/
inductive Sink where
  | stdout
  | file (path : String)
  | clipboard
deriving DecidableEq

/-- The concrete byte streams of the process. -/
inductive StreamId where
  | out
  | err
  | fileDest
  | clip
deriving DecidableEq

/-- Which stream an event lands on, given the selected primary sink:
`record`s go through the `writer` (the sink); `click.echo` without
`err=True` goes to standard output; with `err=True` to standard error. -/
def eventStream (sink : Sink) : Event → StreamId
  | .record _ _ =>
    match sink with
    | .stdout => .out
    | .file _ => .fileDest
    | .clipboard => .clip
  | .echoOut _ => .out
  | .echoErr _ => .err

/-! ### The walker (`process_path`) -/

/-- The warning text of `process_path` for an undecodable file (paths are
built with `/`, so `norm_path` is the identity here). -/
def decodeWarning (path : String) : String :=
  "Warning: Skipping file " ++ path ++ " due to UnicodeDecodeError"

/-- Reading and emitting a single file: a `record` through the writer on
success, the `UnicodeDecodeError` warning via plain `click.echo` (i.e.
standard output) on decode failure. -/
def processFile (path : String) : Option String → List Event
  | some content => [.record path content]
  | none => [.echoOut (decodeWarning path)]

/-- The gitignore rule list in force at one directory level:
`gitignore_rules.extend(read_gitignore(root))` runs unless
`--ignore-gitignore` is set. -/
def levelRules (opts : Options) (rules : List String) (entries : EntryList) : List String :=
  if opts.ignore_gitignore then rules else rules ++ read_gitignore entries

/-- The composed file filters of one `os.walk` iteration, in source
order: hidden filter, gitignore filter, explicit ignore patterns,
extension filter (`f.endswith(extensions)` on the raw name). -/
def fileKeep (opts : Options) (rules1 : List String) (n : String) : Bool :=
  (opts.include_hidden || !(startsWithDot n)) &&
  (opts.ignore_gitignore || !(should_ignore n false rules1)) &&
  (opts.ignore_patterns.isEmpty || !(opts.ignore_patterns.any (fun pat => fnmatch n pat))) &&
  (opts.extensions.isEmpty || opts.extensions.any (fun ext => strEndsWith n ext))

/-- The composed subdirectory filters of one `os.walk` iteration: hidden
filter, gitignore filter (with the trailing-slash variant via
`should_ignore`), and explicit ignore patterns unless
`--ignore-files-only` exempts directories. -/
def dirKeep (opts : Options) (rules1 : List String) (n : String) : Bool :=
  (opts.include_hidden || !(startsWithDot n)) &&
  (opts.ignore_gitignore || !(should_ignore n true rules1)) &&
  (opts.ignore_patterns.isEmpty || opts.ignore_files_only ||
    !(opts.ignore_patterns.any (fun pat => fnmatch n pat)))

/-- Insertion point of Python's `sorted(files)` (comparison on the file
name only; names within one directory are distinct). -/
def insertByName (x : String × Option String) :
    List (String × Option String) → List (String × Option String)
  | [] => [x]
  | y :: ys => if strLt x.1 y.1 then x :: y :: ys else y :: insertByName x ys

/-- Python's `sorted(files)`: sort the filtered file list by name. -/
def sortByName (l : List (String × Option String)) : List (String × Option String) :=
  l.foldr insertByName []

mutual
/-- One `os.walk` iteration of the directory branch of `process_path`,
with explicit fuel: extend the shared rule list with this directory's
`.gitignore`, filter and emit the files in sorted order, then descend
into the surviving subdirectories in listing order, threading the rule
list through (the Python list is mutated in place, so rules loaded in one
subtree stay active in later siblings).  Out of fuel, it does nothing;
the fuel provided by `walkDir` strictly dominates the recursion depth
(each nested call decreases the combined `lSize` measure). -/
def walkDirF : Nat → Options → String → EntryList → List String → List String × List Event
  | 0, _, _, _, rules => (rules, [])
  | fuel + 1, opts, root, entries, rules =>
    let rules1 := levelRules opts rules entries
    let kept := sortByName ((filesOf entries).filter (fun f => fileKeep opts rules1 f.1))
    let fileEvs := (kept.map (fun f => processFile (root ++ "/" ++ f.1) f.2)).flatten
    let sub := walkSubF fuel opts root (fun d => dirKeep opts rules1 d) (dirsOf entries) rules1
    (sub.1, fileEvs ++ sub.2)

/-- Descent into the subdirectory list of one `os.walk` iteration.  The
`keep` predicate is fixed at the parent (Python prunes `dirs[:]` before
descending), while the rule list threads through siblings. -/
def walkSubF : Nat → Options → String → (String → Bool) → List (String × EntryList) →
    List String → List String × List Event
  | 0, _, _, _, _, rules => (rules, [])
  | _ + 1, _, _, _, [], rules => (rules, [])
  | fuel + 1, opts, root, keep, (n, cs) :: rest, rules =>
    if keep n then
      let p := walkDirF fuel opts (root ++ "/" ++ n) cs rules
      let q := walkSubF fuel opts root keep rest p.1
      (q.1, p.2 ++ q.2)
    else
      walkSubF fuel opts root keep rest rules
end

/-- The directory branch of `process_path`: walk `path` with fuel that
provably exceeds the recursion depth (`lSize` counts 2 per directory and
1 per file, and each nesting level consumes at least that much). -/
def walkDir (opts : Options) (root : String) (entries : EntryList) (rules : List String) :
    List String × List Event :=
  walkDirF (lSize entries + 2) opts root entries rules

/-- `process_path` on one root argument: a file root is read and emitted
directly (never touching the rule list); a directory root is walked. -/
def process_path (opts : Options) (rules : List String) (path : String) :
    Entry → List String × List Event
  | .file _ c => (rules, processFile path c)
  | .dir _ children => walkDir opts path children rules

/-- One root argument of `cli`: the listing of its parent directory
(whose `.gitignore` is read before processing the root) and the entry at
the path. -/
structure RootArg where
  parentEntries : EntryList
  path : String
  entry : Entry

/-- The `for path in paths` loop of `cli`: per root, seed the shared rule
list from the root's parent directory (unless `--ignore-gitignore`), then
run `process_path`; the rule list carries over from one root to the
next. -/
def cliLoop (opts : Options) (rules : List String) : List RootArg → List String × List Event
  | [] => (rules, [])
  | r :: rs =>
    let rules1 := if opts.ignore_gitignore then rules
      else rules ++ read_gitignore r.parentEntries
    let p := process_path opts rules1 r.path r.entry
    let q := cliLoop opts p.1 rs
    (q.1, p.2 ++ q.2)

/-! ### Configuration (`find_project_config`, `merge_configs`, `cli` option merge)

Directories are modelled as component lists with the deepest component
first, so `[]` is the filesystem root and `Path.parent` is `List.tail`.
`hasConfig d` models `(d / ".files-to-prompt.toml").exists()`. -/

/-- `find_project_config()`: starting at the current directory, test for
the fixed-name config file and move to the parent while
`current != current.parent`; the loop guard means the root itself
(`current == current.parent`) is never tested. -/
def find_project_config (hasConfig : List String → Bool) : List String → Option (List String)
  | [] => none
  | d :: rest =>
    if hasConfig (d :: rest) then some (d :: rest)
    else find_project_config hasConfig rest

/-- The directories visited by the `find_project_config` loop: the
current working directory and every proper ancestor above it, excluding
the filesystem root. -/
def ancestorChain : List String → List (List String)
  | [] => []
  | d :: rest => (d :: rest) :: ancestorChain rest

/-- A TOML value as used under the `defaults` table. -/
inductive CVal where
  | b (v : Bool)
  | s (v : String)
  | strs (v : List String)
deriving DecidableEq

/-- Python `dict` lookup on an insertion-ordered association list. -/
def dictGet (d : List (String × CVal)) (k : String) : Option CVal :=
  (d.find? (fun kv => kv.1 == k)).map (fun kv => kv.2)

/-- Python `dict` assignment: replace in place if the key exists, else
append. -/
def dictSet : List (String × CVal) → String → CVal → List (String × CVal)
  | [], k, v => [(k, v)]
  | (k1, v1) :: rest, k, v =>
    if k1 == k then (k, v) :: rest else (k1, v1) :: dictSet rest k v

/-- The loop body of `merge_configs`: for each `key, value` in a layer's
`defaults`, combine with the accumulated result; `ignore` lists already
present are unioned (`list(set(result[key] + value))`, whose iteration
order is unspecified in Python — a canonical order is fixed here via
`dedup`), every other key is overwritten. -/
def mergeOne (result : List (String × CVal)) (kv : String × CVal) : List (String × CVal) :=
  if kv.1 == "ignore" && (dictGet result kv.1).isSome then
    match dictGet result kv.1, kv.2 with
    | some (CVal.strs old), CVal.strs new => dictSet result kv.1 (CVal.strs ((old ++ new).dedup))
    | _, _ => dictSet result kv.1 kv.2
  else dictSet result kv.1 kv.2

/-- `merge_configs(configs)`: iterate over `reversed(configs)`, skipping
configs without a `defaults` table (modelled as `none`), folding each
layer's entries into the result.  `load_config` passes
`[user_config, project_config]` in that order. -/
def merge_configs (configs : List (Option (List (String × CVal)))) : List (String × CVal) :=
  configs.reverse.foldl
    (fun result cfg =>
      match cfg with
      | none => result
      | some defaults => defaults.foldl mergeOne result) []

/-- The `--ignore` merge in `cli` (lines 433-436): no CLI patterns plus a
config `ignore` key uses the config's list; CLI patterns plus a config
key take `set(cli) | set(config)` (unordered in Python; a canonical order
is fixed via `dedup`, the claims about it are membership statements); no
config key leaves the CLI patterns untouched. -/
def resolve_ignore (cli : List String) (cfg : Option (List String)) : List String :=
  match cfg with
  | some c => if cli.isEmpty then c else (cli ++ c).dedup
  | none => cli

/-! ### Output-sink selection in `cli` -/

/-- Python truthiness of the `output_file` option (`None` and the empty
string are falsy). -/
def truthyOut : Option String → Bool
  | none => false
  | some p => !(p == "")

/-- Lines 467-472 of `cli`: when both the copy flag (`-C`) and a truthy
output file (`-o`) are set, emit the notice on standard error and clear the
clipboard flag.  Returns the resolved flag and the diagnostic events. -/
def resolve_sink_conflict (copy : Bool) (out : Option String) : Bool × List Event :=
  if copy && truthyOut out then
    (false, [.echoErr "Note: -o/--output overrides -C/--copy; writing output to file only."])
  else
    (copy, [])

/-- Writer selection (lines 479-484): clipboard buffer if the (resolved)
copy flag is set, else the output file if truthy, else standard out. -/
def chooseSink (copy : Bool) (out : Option String) : Sink :=
  if copy then .clipboard
  else if truthyOut out then .file (out.getD "") else .stdout

/-- Whether the clipboard step (lines 509-532) runs: exactly when the
resolved copy flag is still set (the buffer exists iff the flag is). -/
def clipboard_invoked (copy : Bool) : Bool := copy

/-! ### Concrete scenario trees -/

/-- The children of `d/sub` in the spec's scenario: the ignore file
listing `skip.txt`, plus `skip.txt` and `keep.txt`. -/
def c3SubEntries : EntryList :=
  .cons (.file ".gitignore" (some "skip.txt"))
    (.cons (.file "skip.txt" (some "S"))
      (.cons (.file "keep.txt" (some "K")) .nil))

/-- The children of `d` in the spec's scenario: `a.txt`, hidden `.b.txt`
and the subdirectory `sub`. -/
def c3Entries : EntryList :=
  .cons (.file "a.txt" (some "A"))
    (.cons (.file ".b.txt" (some "B"))
      (.cons (.dir "sub" c3SubEntries) .nil))

/-! ### Claims about the configuration layer -/

/-- C2 counterexample: with the project config file present exactly at
the filesystem root (`[]`) and the working directory one level below it,
the claim demands that the root's file be located, but
`find_project_config` returns `none` — its loop guard
`current != current.parent` stops before ever testing the root. -/
theorem c2_counterexample :
    find_project_config (fun p => p.isEmpty) ["a"] = none ∧
    (fun p : List String => p.isEmpty) [] = true := by
  decide

/-- C2 (amended): the search visits the current working directory and
every proper ancestor strictly below the filesystem root (`ancestorChain`),
but never the root itself: if exactly one visited directory carries the
config file it is returned, and if none does the result is `none`. -/
theorem c2_amended (h : List String → Bool) (cwd : List String) :
    (∀ a, a ∈ ancestorChain cwd → h a = true →
      (∀ b, b ∈ ancestorChain cwd → h b = true → b = a) →
      find_project_config h cwd = some a) ∧
    ((∀ b, b ∈ ancestorChain cwd → h b = false) →
      find_project_config h cwd = none) := by
  induction cwd with
  | nil =>
    refine ⟨?_, ?_⟩
    · intro a ha
      simp [ancestorChain] at ha
    · intro _
      simp [find_project_config]
  | cons d rest ih =>
    refine ⟨?_, ?_⟩
    · intro a ha hha huniq
      by_cases hd : h (d :: rest) = true
      · have hda : d :: rest = a := huniq (d :: rest) (by simp [ancestorChain]) hd
        subst hda
        simp [find_project_config, hd]
      · have ha2 : a ∈ ancestorChain rest := by
          rcases (by simpa [ancestorChain] using ha : a = d :: rest ∨ a ∈ ancestorChain rest) with
            h1 | h2
          · exact absurd (h1 ▸ hha) hd
          · exact h2
        have hrec := ih.1 a ha2 hha
          (fun b hb hhb => huniq b (by simp [ancestorChain, hb]) hhb)
        simp [find_project_config, hd, hrec]
    · intro hall
      have hd : h (d :: rest) = false := hall _ (by simp [ancestorChain])
      have hrec := ih.2 (fun b hb => hall b (by simp [ancestorChain, hb]))
      simp [find_project_config, hd, hrec]

/-- C2 amended, witnessed at a one-level working directory whose own
listing carries the config file. -/
theorem c2_amended_witness :
    find_project_config (fun p => decide (p = ["x"])) ["x"] = some ["x"] := by
  refine (c2_amended (fun p => decide (p = ["x"])) ["x"]).1 ["x"] ?_ ?_ ?_
  · simp [ancestorChain]
  · decide
  · intro b hb _
    simpa [ancestorChain] using hb

/-- C4: the CLI/config merge for `--ignore` — config patterns alone when
the CLI gave none, the set union of both when both are present, and the
CLI patterns alone when the config defines none. -/
theorem c4_ignore_merge (cli cfg : List String) (hne : cli ≠ []) :
    (resolve_ignore [] (some cfg) = cfg) ∧
    (∀ x, x ∈ resolve_ignore cli (some cfg) ↔ (x ∈ cli ∨ x ∈ cfg)) ∧
    (resolve_ignore cli none = cli) := by
  refine ⟨by simp [resolve_ignore], ?_, by simp [resolve_ignore]⟩
  intro x
  have he : cli.isEmpty = false := by
    cases cli with
    | nil => exact absurd rfl hne
    | cons a l => rfl
  simp [resolve_ignore, he, List.mem_dedup, List.mem_append]

/-- C4, witnessed on the spec's own example: CLI `*.tmp` with config
`*.pyc` keeps both patterns in the merged set. -/
theorem c4_ignore_merge_witness :
    ("*.pyc" ∈ resolve_ignore ["*.tmp"] (some ["*.pyc"]) ↔
      ("*.pyc" ∈ ["*.tmp"] ∨ "*.pyc" ∈ ["*.pyc"])) ∧
    ("*.tmp" ∈ resolve_ignore ["*.tmp"] (some ["*.pyc"]) ↔
      ("*.tmp" ∈ ["*.tmp"] ∨ "*.tmp" ∈ ["*.pyc"])) := by
  exact ⟨(c4_ignore_merge ["*.tmp"] ["*.pyc"] (by decide)).2.1 "*.pyc",
         (c4_ignore_merge ["*.tmp"] ["*.pyc"] (by decide)).2.1 "*.tmp"⟩

/-- C5: the code's actual merge direction.  `load_config` builds
`[user_config, project_config]` and documents the project layer as the
higher-precedence one, but `merge_configs` folds over
`reversed(configs)` with later writes overwriting, so for a key defined
in both layers the USER value survives (first conjunct: both layers set
`line_numbers`, the result is the user layer's `true`, where the claim
requires the project layer's `false`).  The `ignore` key is indeed
unioned (second conjunct). -/
theorem c5_code_behavior :
    dictGet (merge_configs
        [some [("line_numbers", CVal.b true)],
         some [("line_numbers", CVal.b false)]]) "line_numbers"
      = some (CVal.b true) ∧
    dictGet (merge_configs
        [some [("ignore", CVal.strs ["*.log"])],
         some [("ignore", CVal.strs ["*.pyc"])]]) "ignore"
      = some (CVal.strs ["*.pyc", "*.log"]) := by
  decide

/-- C6: with the clipboard flag and a (truthy) output file both active,
the conflict resolution clears the clipboard flag and emits exactly the
one-line notice on standard error; the writer then targets the file, and
the clipboard step does not run. -/
theorem c6_sink_conflict (p : String) (hp : (p == "") = false) :
    resolve_sink_conflict true (some p)
      = (false,
         [Event.echoErr
           "Note: -o/--output overrides -C/--copy; writing output to file only."]) ∧
    chooseSink (resolve_sink_conflict true (some p)).1 (some p) = Sink.file p ∧
    clipboard_invoked (resolve_sink_conflict true (some p)).1 = false := by
  have ht : truthyOut (some p) = true := by simp [truthyOut, hp]
  refine ⟨?_, ?_, ?_⟩ <;>
    simp [resolve_sink_conflict, chooseSink, clipboard_invoked, ht]

/-- C6, witnessed at a concrete output path. -/
theorem c6_sink_conflict_witness :
    resolve_sink_conflict true (some "out.txt")
      = (false,
         [Event.echoErr
           "Note: -o/--output overrides -C/--copy; writing output to file only."]) ∧
    chooseSink (resolve_sink_conflict true (some "out.txt")).1 (some "out.txt")
      = Sink.file "out.txt" ∧
    clipboard_invoked (resolve_sink_conflict true (some "out.txt")).1 = false :=
  c6_sink_conflict "out.txt" (by decide)

/-! ### Claims about the walker -/

/-- C3: on the spec's scenario tree (`a.txt`, hidden `.b.txt`, and `sub`
whose ignore file lists `skip.txt`, next to `sub/skip.txt` and
`sub/keep.txt`), a default invocation on `d` yields exactly the records
for `d/a.txt` and `d/sub/keep.txt`, in that order (files sorted at each
level, parent level before the descent). -/
theorem c3_scenario :
    (cliLoop defaultOpts [] [RootArg.mk EntryList.nil "d" (Entry.dir "d" c3Entries)]).2
      = [Event.record "d/a.txt" "A", Event.record "d/sub/keep.txt" "K"] := by
  decide

/-- C1 counterexample: a directory holding an undecodable
`binary_file.bin` and a readable `text_file.txt`, walked with the default
options.  The decode warning is emitted as `echoOut` — plain
`click.echo` without `err=True` — so under the default stdout sink it
lands on the very same stream as the primary `record` output
(interleaved ahead of it), contradicting the claim that such warnings go
to a diagnostic stream distinct from the content stream. -/
theorem c1_counterexample :
    (walkDir defaultOpts "test_dir"
        (EntryList.cons (Entry.file "binary_file.bin" none)
          (EntryList.cons (Entry.file "text_file.txt" (some "T")) EntryList.nil)) []).2
      = [Event.echoOut (decodeWarning "test_dir/binary_file.bin"),
         Event.record "test_dir/text_file.txt" "T"] ∧
    eventStream Sink.stdout (Event.echoOut (decodeWarning "test_dir/binary_file.bin"))
      = eventStream Sink.stdout (Event.record "test_dir/text_file.txt" "T") := by
  decide

/-! ### Claims about pattern matching and filters -/

lemma spanUntilRB_eq (l : List Char) : ∀ (s r : List Char),
    spanUntilRB l = some (s, r) → l = s ++ ']' :: r := by
  induction l with
  | nil => intro s r h; simp [spanUntilRB] at h
  | cons c rest ih =>
    intro s r h
    by_cases hc : c = ']'
    · subst hc
      simp [spanUntilRB] at h
      obtain ⟨rfl, rfl⟩ := h
      simp
    · simp only [spanUntilRB, if_neg hc] at h
      cases hsp : spanUntilRB rest with
      | none => rw [hsp] at h; simp at h
      | some p =>
        obtain ⟨s1, r1⟩ := p
        rw [hsp] at h
        simp only [Option.some.injEq, Prod.mk.injEq] at h
        obtain ⟨rfl, rfl⟩ := h
        rw [ih s1 r1 hsp]
        simp

lemma bracketBody_shape (neg : Bool) (body : List Char) (neg2 : Bool) (st r : List Char)
    (h : bracketBody neg body = some (neg2, st, r)) : ∃ pre, body = pre ++ ']' :: r := by
  cases body with
  | nil => simp [bracketBody, spanUntilRB] at h
  | cons b rest2 =>
    by_cases hb : b = ']'
    · subst hb
      cases hsp : spanUntilRB rest2 with
      | none => simp [bracketBody, hsp] at h
      | some p =>
        obtain ⟨s1, r1⟩ := p
        simp [bracketBody, hsp] at h
        obtain ⟨-, -, rfl⟩ := h
        exact ⟨']' :: s1, by rw [spanUntilRB_eq rest2 s1 r1 hsp]; simp⟩
    · cases hsp : spanUntilRB (b :: rest2) with
      | none => simp [bracketBody, hb, hsp] at h
      | some p =>
        obtain ⟨s1, r1⟩ := p
        simp [bracketBody, hb, hsp] at h
        obtain ⟨-, -, rfl⟩ := h
        exact ⟨s1, spanUntilRB_eq _ s1 r1 hsp⟩

lemma splitBracket_shape (ps : List Char) (neg : Bool) (st r : List Char)
    (h : splitBracket ps = some (neg, st, r)) : ∃ pre, ps = pre ++ ']' :: r := by
  cases ps with
  | nil => simp [splitBracket, bracketBody, spanUntilRB] at h
  | cons a body =>
    by_cases ha : a = '!'
    · subst ha
      obtain ⟨pre, hpre⟩ :=
        bracketBody_shape true body neg st r (by simpa [splitBracket] using h)
      exact ⟨'!' :: pre, by rw [hpre]; simp⟩
    · obtain ⟨pre, hpre⟩ := bracketBody_shape false (a :: body) neg st r
        (by simpa [splitBracket, ha] using h)
      exact ⟨pre, hpre⟩

lemma getLast?_tail_of_ne (x : Char) (ps : List Char) (hx : x ≠ '/')
    (hl : (x :: ps).getLast? = some '/') : ps.getLast? = some '/' := by
  cases ps with
  | nil => simp at hl; exact absurd hl hx
  | cons y ys => rwa [List.getLast?_cons_cons] at hl

/-- A glob pattern whose final character is `/` can only match a name
that contains a `/`: the trailing slash is a literal (it is never part of
a bracket set, which would end in `]`), so a successful match must have
consumed it against a slash of the name. -/
lemma fnmatchFuel_slash (fuel : Nat) (p s : List Char)
    (h : fnmatchFuel fuel p s = true) (hl : p.getLast? = some '/') : '/' ∈ s := by
  revert h hl
  induction fuel, p, s using fnmatchFuel.induct <;> intro h hl
  case case1 => simp [fnmatchFuel] at h
  case case2 => simp at hl
  case case3 f ps ih =>
    simp [fnmatchFuel] at h
    exact ih h (getLast?_tail_of_ne '*' ps (by decide) hl)
  case case4 f ps c rest ih2 ih1 =>
    simp [fnmatchFuel] at h
    rcases h with h1 | h2
    · exact ih2 h1 (getLast?_tail_of_ne '*' ps (by decide) hl)
    · exact List.mem_cons_of_mem _ (ih1 h2 hl)
  case case5 => simp [fnmatchFuel] at h
  case case6 f ps c rest hq ih1 =>
    simp [fnmatchFuel] at h
    exact List.mem_cons_of_mem _ (ih1 h (getLast?_tail_of_ne '?' ps (by decide) hl))
  case case7 => simp [fnmatchFuel] at h
  case case8 f ps c rest neg st r hsb hs hq ih1 =>
    simp [fnmatchFuel, hsb] at h
    obtain ⟨-, h2⟩ := h
    obtain ⟨pre, hpre⟩ := splitBracket_shape ps neg st r hsb
    rw [hpre, show ('[' :: (pre ++ ']' :: r)) = ('[' :: pre) ++ (']' :: r) from by simp,
      List.getLast?_append_cons] at hl
    cases r with
    | nil => simp at hl
    | cons r0 rs =>
      rw [List.getLast?_cons_cons] at hl
      exact List.mem_cons_of_mem _ (ih1 h2 hl)
  case case9 f ps c rest hsb hs hq ih1 =>
    simp [fnmatchFuel, hsb] at h
    exact List.mem_cons_of_mem _
      (ih1 h.2 (getLast?_tail_of_ne '[' ps (by decide) hl))
  case case10 f c0 ps hs hq hb =>
    simp [fnmatchFuel, hs, hq, hb] at h
  case case11 f c0 ps hs hq hb c rest ih1 =>
    simp [fnmatchFuel, hs, hq, hb] at h
    obtain ⟨rfl, h2⟩ := h
    cases ps with
    | nil =>
      simp at hl
      exact hl ▸ List.mem_cons_self _ _
    | cons q qs =>
      rw [List.getLast?_cons_cons] at hl
      exact List.mem_cons_of_mem _ (ih1 h2 hl)

/-- C9: explicit `--ignore` patterns are tested with a bare
`fnmatch(name, pattern)` on the basename, so a pattern ending in `/` can
never match a directory name (which contains no slash); the
gitignore-rule path through `should_ignore` additionally tries
`basename + "/"`, which such a pattern does match. -/
theorem c9_trailing_slash (d pat : String)
    (hp : pat.data.getLast? = some '/')
    (hd : d.data.all (fun ch => !(ch == '/')) = true) :
    fnmatch d pat = false ∧ should_ignore "build" true ["build/"] = true := by
  refine ⟨?_, by decide⟩
  cases hfm : fnmatch d pat with
  | false => rfl
  | true =>
    rw [fnmatch] at hfm
    have hmem := fnmatchFuel_slash _ _ _ hfm hp
    rw [List.all_eq_true] at hd
    have := hd '/' hmem
    simp at this

/-- C9, witnessed on the directory name `build` against the explicit
pattern `build/` and the identical gitignore rule. -/
theorem c9_trailing_slash_witness :
    fnmatch "build" "build/" = false ∧
    should_ignore "build" true ["build/"] = true :=
  c9_trailing_slash "build" "build/" (by decide) (by decide)

/-- C8: with a non-empty `--extension` list (and the other filters
passing), a file survives the extension filter exactly when its raw name
ends with one of the supplied strings — `f.endswith(extensions)` is a
plain suffix test, with no dot-boundary logic, so extension `py` also
keeps a dotless file named `happy`, end to end through the walker. -/
theorem c8_extension_suffix (exts : List String) (n : String)
    (hne : exts ≠ []) (hh : startsWithDot n = false) :
    (fileKeep (Options.mk exts false false false []) [] n = true ↔
      ∃ e, e ∈ exts ∧ strEndsWith n e = true) ∧
    fileKeep (Options.mk ["py"] false false false []) [] "happy" = true ∧
    (walkDir (Options.mk ["py"] false false false []) "r"
        (EntryList.cons (Entry.file "happy" (some "X")) EntryList.nil) []).2
      = [Event.record "r/happy" "X"] := by
  refine ⟨?_, by decide, by decide⟩
  have hse : exts.isEmpty = false := by
    cases exts with
    | nil => exact absurd rfl hne
    | cons a l => rfl
  simp [fileKeep, hh, should_ignore, hse, List.any_eq_true]

/-- C8, witnessed on the dotless name `happy` with extension list
`[py]`. -/
theorem c8_extension_suffix_witness :
    fileKeep (Options.mk ["py"] false false false []) [] "happy" = true ↔
      ∃ e, e ∈ ["py"] ∧ strEndsWith "happy" e = true :=
  (c8_extension_suffix ["py"] "happy" (by decide) (by decide)).1

/-! ### Claims about the traversal state -/

lemma insertByName_perm (x : String × Option String) (l : List (String × Option String)) :
    (insertByName x l).Perm (x :: l) := by
  induction l with
  | nil => exact List.Perm.refl _
  | cons y ys ih =>
    by_cases h : strLt x.1 y.1 = true
    · simp [insertByName, h]
    · simp only [insertByName, if_neg h]
      exact (List.Perm.cons y ih).trans (List.Perm.swap x y ys)

lemma sortByName_perm (l : List (String × Option String)) : (sortByName l).Perm l := by
  induction l with
  | nil => exact List.Perm.refl _
  | cons x xs ih => exact (insertByName_perm x (sortByName xs)).trans (List.Perm.cons x ih)

lemma mem_sortByName {x : String × Option String} {l : List (String × Option String)} :
    x ∈ sortByName l ↔ x ∈ l :=
  (sortByName_perm l).mem_iff

/-- Monotonicity of the shared gitignore-rule list: a walk only ever
appends to it (Python's `gitignore_rules.extend`), never removes. -/
lemma walk_rules_mono (fuel : Nat) :
    (∀ opts root entries rules,
      ∃ ext, (walkDirF fuel opts root entries rules).1 = rules ++ ext) ∧
    (∀ opts root keep (ds : List (String × EntryList)) rules,
      ∃ ext, (walkSubF fuel opts root keep ds rules).1 = rules ++ ext) := by
  induction fuel with
  | zero =>
    exact ⟨fun _ _ _ rules => ⟨[], by simp [walkDirF]⟩,
           fun _ _ _ _ rules => ⟨[], by simp [walkSubF]⟩⟩
  | succ f ih =>
    constructor
    · intro opts root entries rules
      obtain ⟨e1, he1⟩ := ih.2 opts root
        (fun d => dirKeep opts (levelRules opts rules entries) d)
        (dirsOf entries) (levelRules opts rules entries)
      by_cases hg : opts.ignore_gitignore = true
      · refine ⟨e1, ?_⟩
        have hlv : levelRules opts rules entries = rules := by simp [levelRules, hg]
        calc (walkDirF (f + 1) opts root entries rules).1
            = (walkSubF f opts root (fun d => dirKeep opts (levelRules opts rules entries) d)
                (dirsOf entries) (levelRules opts rules entries)).1 := rfl
          _ = rules ++ e1 := by rw [he1, hlv]
      · refine ⟨read_gitignore entries ++ e1, ?_⟩
        have hlv : levelRules opts rules entries = rules ++ read_gitignore entries := by
          simp [levelRules, hg]
        calc (walkDirF (f + 1) opts root entries rules).1
            = (walkSubF f opts root (fun d => dirKeep opts (levelRules opts rules entries) d)
                (dirsOf entries) (levelRules opts rules entries)).1 := rfl
          _ = rules ++ (read_gitignore entries ++ e1) := by
              rw [he1, hlv, List.append_assoc]
    · intro opts root keep ds rules
      cases ds with
      | nil => exact ⟨[], by simp [walkSubF]⟩
      | cons hd rest =>
        obtain ⟨n, cs⟩ := hd
        cases hk : keep n with
        | true =>
          obtain ⟨e1, he1⟩ := ih.1 opts (root ++ "/" ++ n) cs rules
          obtain ⟨e2, he2⟩ := ih.2 opts root keep rest
            (walkDirF f opts (root ++ "/" ++ n) cs rules).1
          refine ⟨e1 ++ e2, ?_⟩
          simp only [walkSubF, hk, if_true]
          rw [he2, he1, List.append_assoc]
        | false =>
          obtain ⟨e, he⟩ := ih.2 opts root keep rest rules
          exact ⟨e, by simpa [walkSubF, hk] using he⟩

/-- Every `record` event produced by a walk stems from a file that passed
`fileKeep` under some rule list, with the file's basename as the last
path segment. -/
lemma walk_records_shape (fuel : Nat) :
    (∀ opts root entries rules p c,
        Event.record p c ∈ (walkDirF fuel opts root entries rules).2 →
        ∃ d m rs, p = d ++ "/" ++ m ∧ fileKeep opts rs m = true) ∧
    (∀ opts root keep (ds : List (String × EntryList)) rules p c,
        Event.record p c ∈ (walkSubF fuel opts root keep ds rules).2 →
        ∃ d m rs, p = d ++ "/" ++ m ∧ fileKeep opts rs m = true) := by
  induction fuel with
  | zero =>
    constructor
    · intro _ _ _ _ _ _ h
      simp [walkDirF] at h
    · intro _ _ _ _ _ _ _ h
      simp [walkSubF] at h
  | succ f ih =>
    constructor
    · intro opts root entries rules p c hmem
      simp only [walkDirF, List.mem_append] at hmem
      rcases hmem with hfile | hsub
      · rw [List.mem_flatten] at hfile
        obtain ⟨l, hl, hml⟩ := hfile
        rw [List.mem_map] at hl
        obtain ⟨fpair, hfp, rfl⟩ := hl
        have hkeep : fileKeep opts (levelRules opts rules entries) fpair.1 = true := by
          have := mem_sortByName.mp hfp
          exact (List.mem_filter.mp this).2
        cases hc : fpair.2 with
        | none => rw [hc] at hml; simp [processFile] at hml
        | some ct =>
          rw [hc] at hml
          simp only [processFile, List.mem_singleton, Event.record.injEq] at hml
          exact ⟨root, fpair.1, levelRules opts rules entries, hml.1, hkeep⟩
      · exact ih.2 opts root _ (dirsOf entries) (levelRules opts rules entries) p c hsub
    · intro opts root keep ds rules p c hmem
      cases ds with
      | nil => simp [walkSubF] at hmem
      | cons hd rest =>
        obtain ⟨n, cs⟩ := hd
        cases hk : keep n with
        | true =>
          simp only [walkSubF, hk, if_true, List.mem_append] at hmem
          rcases hmem with h1 | h2
          · exact ih.1 opts (root ++ "/" ++ n) cs rules p c h1
          · exact ih.2 opts root keep rest _ p c h2
        | false =>
          simp only [walkSubF, hk, if_false] at hmem
          exact ih.2 opts root keep rest rules p c hmem

/-- C7: with `--ignore-files-only`, subdirectory pruning is entirely
independent of the explicit ignore patterns (a matching directory name is
still descended into), while every file record the whole walk ever emits
has a basename matching none of the ignore patterns, at every depth. -/
theorem c7_ignore_files_only (opts : Options) (root : String) (entries : EntryList)
    (rules : List String) (hifo : opts.ignore_files_only = true) :
    (∀ rs n ps2, dirKeep opts rs n
        = dirKeep (Options.mk opts.extensions opts.include_hidden opts.ignore_files_only
            opts.ignore_gitignore ps2) rs n) ∧
    (∀ p c, Event.record p c ∈ (walkDir opts root entries rules).2 →
      ∃ d m, p = d ++ "/" ++ m ∧
        opts.ignore_patterns.any (fun pat => fnmatch m pat) = false) := by
  constructor
  · intro rs n ps2
    simp [dirKeep, hifo]
  · intro p c hmem
    rw [walkDir] at hmem
    obtain ⟨d, m, rs, hp, hk⟩ :=
      (walk_records_shape (lSize entries + 2)).1 opts root entries rules p c hmem
    refine ⟨d, m, hp, ?_⟩
    have hk3 : (opts.ignore_patterns.isEmpty
        || !(opts.ignore_patterns.any (fun pat => fnmatch m pat))) = true := by
      have := hk
      simp only [fileKeep, Bool.and_eq_true] at this
      exact this.1.2
    rcases Bool.or_eq_true_iff.mp hk3 with he | hn
    · rw [List.isEmpty_iff.mp he]
      rfl
    · simpa using hn

/-- C7, witnessed: with `--ignore-files-only` and pattern `build`, the
directory `build` passes the same pruning test as with no patterns at
all. -/
theorem c7_ignore_files_only_witness :
    dirKeep (Options.mk [] false true false ["build"]) [] "build"
      = dirKeep (Options.mk [] false true false []) [] "build" :=
  (c7_ignore_files_only (Options.mk [] false true false ["build"]) "r"
    EntryList.nil [] rfl).1 [] "build" []

lemma process_path_rules_mono (opts : Options) (rules : List String) (path : String)
    (e : Entry) : ∃ ext, (process_path opts rules path e).1 = rules ++ ext := by
  cases e with
  | file n c => exact ⟨[], by simp [process_path]⟩
  | dir n children =>
    obtain ⟨ext, hext⟩ := (walk_rules_mono (lSize children + 2)).1 opts path children rules
    exact ⟨ext, hext⟩

lemma cliLoop_rules_mono (opts : Options) (roots : List RootArg) :
    ∀ rules, ∃ ext, (cliLoop opts rules roots).1 = rules ++ ext := by
  induction roots with
  | nil => exact fun rules => ⟨[], by simp [cliLoop]⟩
  | cons r rs ih =>
    intro rules
    cases hg : opts.ignore_gitignore with
    | true =>
      obtain ⟨e1, he1⟩ := process_path_rules_mono opts rules r.path r.entry
      obtain ⟨e2, he2⟩ := ih (process_path opts rules r.path r.entry).1
      refine ⟨e1 ++ e2, ?_⟩
      simp only [cliLoop, hg, if_true]
      rw [he2, he1, List.append_assoc]
    | false =>
      obtain ⟨e1, he1⟩ :=
        process_path_rules_mono opts (rules ++ read_gitignore r.parentEntries) r.path r.entry
      obtain ⟨e2, he2⟩ :=
        ih (process_path opts (rules ++ read_gitignore r.parentEntries) r.path r.entry).1
      refine ⟨read_gitignore r.parentEntries ++ (e1 ++ e2), ?_⟩
      simp only [cliLoop, hg, Bool.false_eq_true, if_false]
      rw [he2, he1, List.append_assoc, List.append_assoc]

lemma cliLoop_append (opts : Options) (as : List RootArg) :
    ∀ rules (bs : List RootArg),
      cliLoop opts rules (as ++ bs)
        = ((cliLoop opts (cliLoop opts rules as).1 bs).1,
           (cliLoop opts rules as).2 ++ (cliLoop opts (cliLoop opts rules as).1 bs).2) := by
  induction as with
  | nil => intro rules bs; simp [cliLoop]
  | cons r rs ih =>
    intro rules bs
    simp only [List.cons_append, cliLoop, List.append_eq, ih, List.append_assoc]

/-- C10: the gitignore-rule list is one shared, append-only accumulator
for the whole invocation: any walk (and the whole root loop) only ever
appends to it, and processing `as ++ bs` runs `bs` with exactly the rule
list that the processing of `as` ended with — so patterns loaded under
one root stay active for every later root, and none is ever removed. -/
theorem c10_shared_rule_list (opts : Options) (rules : List String) (root : String)
    (entries : EntryList) (roots as bs : List RootArg) :
    (∃ ext, (walkDir opts root entries rules).1 = rules ++ ext) ∧
    (∃ ext, (cliLoop opts rules roots).1 = rules ++ ext) ∧
    (cliLoop opts rules (as ++ bs)
      = ((cliLoop opts (cliLoop opts rules as).1 bs).1,
         (cliLoop opts rules as).2 ++ (cliLoop opts (cliLoop opts rules as).1 bs).2)) :=
  ⟨(walk_rules_mono (lSize entries + 2)).1 opts root entries rules,
   cliLoop_rules_mono opts roots rules,
   cliLoop_append opts as rules bs⟩

/-! ### Claim C1: decode-failure handling -/

lemma filesOf_elAppend (a b : EntryList) :
    filesOf (elAppend a b) = filesOf a ++ filesOf b := by
  induction a, b using elAppend.induct with
  | case1 b => simp [elAppend, filesOf]
  | case2 e es b ih => cases e <;> simp [elAppend, filesOf, ih]

lemma dirsOf_elAppend (a b : EntryList) :
    dirsOf (elAppend a b) = dirsOf a ++ dirsOf b := by
  induction a, b using elAppend.induct with
  | case1 b => simp [elAppend, dirsOf]
  | case2 e es b ih => cases e <;> simp [elAppend, dirsOf, ih]

lemma lSize_elAppend (a b : EntryList) :
    lSize (elAppend a b) = lSize a + lSize b := by
  induction a, b using elAppend.induct with
  | case1 b => simp [elAppend, lSize]
  | case2 e es b ih => cases e <;> simp [elAppend, lSize, eSize, ih] <;> omega

lemma find?_middle {α : Type} (q : α → Bool) (x y : α) (hx : q x = false) (hy : q y = false)
    (A B : List α) : List.find? q (A ++ x :: B) = List.find? q (A ++ y :: B) := by
  induction A with
  | nil =>
    simp only [List.nil_append]
    rw [List.find?_cons_of_neg _ (by simp [hx]), List.find?_cons_of_neg _ (by simp [hy])]
  | cons a A ih =>
    by_cases ha : q a = true
    · simp only [List.cons_append]
      rw [List.find?_cons_of_pos _ ha, List.find?_cons_of_pos _ ha]
    · simp only [List.cons_append]
      rw [List.find?_cons_of_neg _ (by simp [ha]), List.find?_cons_of_neg _ (by simp [ha]), ih]

lemma read_gitignore_middle (pre post : EntryList) (n : String) (c1 c2 : Option String)
    (hng : n ≠ ".gitignore") :
    read_gitignore (elAppend pre (.cons (.file n c1) post))
      = read_gitignore (elAppend pre (.cons (.file n c2) post)) := by
  unfold read_gitignore
  rw [filesOf_elAppend, filesOf_elAppend]
  simp only [filesOf]
  rw [find?_middle (fun f => f.1 == ".gitignore") (n, c1) (n, c2)
    (by simp [hng]) (by simp [hng])]

lemma insertByName_map_comm (g : String × Option String → String × Option String)
    (hg : ∀ q, (g q).1 = q.1) (x : String × Option String)
    (l : List (String × Option String)) :
    insertByName (g x) (l.map g) = (insertByName x l).map g := by
  induction l with
  | nil => simp [insertByName]
  | cons y ys ih =>
    simp only [List.map_cons, insertByName, hg]
    by_cases h : strLt x.1 y.1 = true
    · simp [h]
    · simp [h, ih]

lemma sortByName_map_comm (g : String × Option String → String × Option String)
    (hg : ∀ q, (g q).1 = q.1) (l : List (String × Option String)) :
    sortByName (l.map g) = (sortByName l).map g := by
  induction l with
  | nil => rfl
  | cons x xs ih =>
    calc sortByName ((x :: xs).map g)
        = insertByName (g x) (sortByName (xs.map g)) := rfl
      _ = insertByName (g x) ((sortByName xs).map g) := by rw [ih]
      _ = (insertByName x (sortByName xs)).map g := insertByName_map_comm g hg x _
      _ = (sortByName (x :: xs)).map g := rfl

lemma walkDir_eq (opts : Options) (root : String) (entries : EntryList) (rules : List String) :
    walkDir opts root entries rules
      = ((walkSubF (lSize entries + 1) opts root
            (fun d => dirKeep opts (levelRules opts rules entries) d)
            (dirsOf entries) (levelRules opts rules entries)).1,
         ((sortByName ((filesOf entries).filter
             (fun fp => fileKeep opts (levelRules opts rules entries) fp.1))).map
             (fun fp => processFile (root ++ "/" ++ fp.1) fp.2)).flatten
           ++ (walkSubF (lSize entries + 1) opts root
               (fun d => dirKeep opts (levelRules opts rules entries) d)
               (dirsOf entries) (levelRules opts rules entries)).2) := rfl


lemma map_eq_self_of_ne {l : List (String × Option String)} {n : String}
    (hl : ∀ q ∈ l, q.1 ≠ n) :
    l.map (fun q => if q.1 = n then ((n : String), (none : Option String)) else q) = l := by
  induction l with
  | nil => rfl
  | cons x xs ih =>
    have hx := hl x (List.mem_cons_self x xs)
    simp only [List.map_cons, if_neg hx]
    rw [ih (fun q hq => hl q (List.mem_cons_of_mem _ hq))]

lemma sortByName_mid_split (FA FB : List (String × Option String)) (n s : String)
    (hFA : ∀ q ∈ FA, q.1 ≠ n) (hFB : ∀ q ∈ FB, q.1 ≠ n) :
    ∃ SA SB, sortByName (FA ++ (n, some s) :: FB) = SA ++ (n, some s) :: SB ∧
      sortByName (FA ++ (n, none) :: FB) = SA ++ (n, none) :: SB := by
  have hg : ∀ q : String × Option String,
      ((if q.1 = n then ((n : String), (none : Option String)) else q)).1 = q.1 := by
    intro q
    by_cases h : q.1 = n <;> simp [h]
  have hmem : ((n : String), some s) ∈ sortByName (FA ++ (n, some s) :: FB) :=
    mem_sortByName.mpr (List.mem_append.mpr (Or.inr (List.mem_cons_self _ _)))
  obtain ⟨SA, SB, hS⟩ := List.append_of_mem hmem
  have hcS : List.countP (fun q => q.1 == n) (sortByName (FA ++ (n, some s) :: FB))
      = 1 := by
    rw [(sortByName_perm _).countP_eq, List.countP_append, List.countP_cons]
    have hA : List.countP (fun q => q.1 == n) FA = 0 :=
      List.countP_eq_zero.mpr (fun q hq => by simp [hFA q hq])
    have hB : List.countP (fun q => q.1 == n) FB = 0 :=
      List.countP_eq_zero.mpr (fun q hq => by simp [hFB q hq])
    simp [hA, hB]
  rw [hS, List.countP_append, List.countP_cons] at hcS
  simp only [beq_self_eq_true, if_true, if_pos] at hcS
  have hSA : ∀ q ∈ SA, q.1 ≠ n := by
    intro q hq
    have h0 : List.countP (fun q => q.1 == n) SA = 0 := by omega
    have := List.countP_eq_zero.mp h0 q hq
    simpa using this
  have hSB : ∀ q ∈ SB, q.1 ≠ n := by
    intro q hq
    have h0 : List.countP (fun q => q.1 == n) SB = 0 := by omega
    have := List.countP_eq_zero.mp h0 q hq
    simpa using this
  refine ⟨SA, SB, hS, ?_⟩
  have hmapl : (FA ++ ((n : String), (none : Option String)) :: FB)
      = (FA ++ (n, some s) :: FB).map
          (fun q => if q.1 = n then ((n : String), (none : Option String)) else q) := by
    rw [List.map_append, List.map_cons, map_eq_self_of_ne hFA, map_eq_self_of_ne hFB]
    simp
  rw [hmapl, sortByName_map_comm _ hg, hS, List.map_append, List.map_cons,
    map_eq_self_of_ne hSA, map_eq_self_of_ne hSB]
  simp

/-- C1 (amended): a file with undecodable bytes that passes the filters
is skipped — its `record` event disappears — and the
`UnicodeDecodeError` warning is emitted in its place via plain
`click.echo`, i.e. on standard output (`echoOut`), not on the standard
error diagnostic stream; every event before and after it, and the
resulting rule list, are unchanged, so traversal continues
identically. -/
theorem c1_amended (opts : Options) (rules : List String) (root n s : String)
    (pre post : EntryList)
    (hng : n ≠ ".gitignore")
    (hnodup : ∀ q ∈ filesOf pre ++ filesOf post, q.1 ≠ n)
    (hkeep : fileKeep opts
        (levelRules opts rules (elAppend pre (.cons (.file n (some s)) post))) n = true) :
    ∃ L R,
      (walkDir opts root (elAppend pre (.cons (.file n (some s)) post)) rules).2
        = L ++ Event.record (root ++ "/" ++ n) s :: R ∧
      (walkDir opts root (elAppend pre (.cons (.file n none) post)) rules).2
        = L ++ Event.echoOut (decodeWarning (root ++ "/" ++ n)) :: R ∧
      (walkDir opts root (elAppend pre (.cons (.file n (some s)) post)) rules).1
        = (walkDir opts root (elAppend pre (.cons (.file n none) post)) rules).1 := by
  have hfiles1 : filesOf (elAppend pre (EntryList.cons (Entry.file n (some s)) post))
      = filesOf pre ++ (n, some s) :: filesOf post := by
    rw [filesOf_elAppend]; simp [filesOf]
  have hfiles2 : filesOf (elAppend pre (EntryList.cons (Entry.file n none) post))
      = filesOf pre ++ (n, none) :: filesOf post := by
    rw [filesOf_elAppend]; simp [filesOf]
  have hdirs : dirsOf (elAppend pre (EntryList.cons (Entry.file n none) post))
      = dirsOf (elAppend pre (EntryList.cons (Entry.file n (some s)) post)) := by
    rw [dirsOf_elAppend, dirsOf_elAppend]; simp [dirsOf]
  have hsize : lSize (elAppend pre (EntryList.cons (Entry.file n none) post))
      = lSize (elAppend pre (EntryList.cons (Entry.file n (some s)) post)) := by
    rw [lSize_elAppend, lSize_elAppend]; simp [lSize, eSize]
  have hlv : levelRules opts rules (elAppend pre (EntryList.cons (Entry.file n none) post))
      = levelRules opts rules (elAppend pre (EntryList.cons (Entry.file n (some s)) post)) := by
    unfold levelRules
    rw [read_gitignore_middle pre post n none (some s) hng]
  have hFA : ∀ q ∈ (filesOf pre).filter
      (fun fp => fileKeep opts
        (levelRules opts rules (elAppend pre (EntryList.cons (Entry.file n (some s)) post)))
        fp.1), q.1 ≠ n :=
    fun q hq => hnodup q (List.mem_append.mpr (Or.inl (List.mem_filter.mp hq).1))
  have hFB : ∀ q ∈ (filesOf post).filter
      (fun fp => fileKeep opts
        (levelRules opts rules (elAppend pre (EntryList.cons (Entry.file n (some s)) post)))
        fp.1), q.1 ≠ n :=
    fun q hq => hnodup q (List.mem_append.mpr (Or.inr (List.mem_filter.mp hq).1))
  obtain ⟨SA, SB, hS1, hS2⟩ := sortByName_mid_split _ _ n s hFA hFB
  simp only [walkDir_eq]
  rw [hdirs, hsize, hlv, hfiles1, hfiles2]
  simp only [List.filter_append, List.filter_cons, hkeep, if_true]
  rw [hS1, hS2]
  simp only [List.map_append, List.map_cons, List.flatten_append, List.flatten_cons,
    processFile]
  refine ⟨(SA.map (fun fp => processFile (root ++ "/" ++ fp.1) fp.2)).flatten,
      (SB.map (fun fp => processFile (root ++ "/" ++ fp.1) fp.2)).flatten
        ++ (walkSubF
            (lSize (elAppend pre (EntryList.cons (Entry.file n (some s)) post)) + 1) opts root
            (fun d => dirKeep opts
              (levelRules opts rules (elAppend pre (EntryList.cons (Entry.file n (some s)) post))) d)
            (dirsOf (elAppend pre (EntryList.cons (Entry.file n (some s)) post)))
            (levelRules opts rules
              (elAppend pre (EntryList.cons (Entry.file n (some s)) post)))).2,
      ?_, ?_, trivial⟩
  · simp only [List.append_assoc, List.singleton_append, List.cons_append]
    rfl
  · simp only [List.append_assoc, List.singleton_append, List.cons_append]
    rfl


/-- C1 amended, witnessed on a two-file directory where `b.bin` is the
undecodable file. -/
theorem c1_amended_witness :
    ∃ L R,
      (walkDir defaultOpts "d"
          (elAppend (EntryList.cons (Entry.file "a.txt" (some "A")) EntryList.nil)
            (EntryList.cons (Entry.file "b.bin" (some "B")) EntryList.nil)) []).2
        = L ++ Event.record ("d" ++ "/" ++ "b.bin") "B" :: R ∧
      (walkDir defaultOpts "d"
          (elAppend (EntryList.cons (Entry.file "a.txt" (some "A")) EntryList.nil)
            (EntryList.cons (Entry.file "b.bin" none) EntryList.nil)) []).2
        = L ++ Event.echoOut (decodeWarning ("d" ++ "/" ++ "b.bin")) :: R ∧
      (walkDir defaultOpts "d"
          (elAppend (EntryList.cons (Entry.file "a.txt" (some "A")) EntryList.nil)
            (EntryList.cons (Entry.file "b.bin" (some "B")) EntryList.nil)) []).1
        = (walkDir defaultOpts "d"
            (elAppend (EntryList.cons (Entry.file "a.txt" (some "A")) EntryList.nil)
              (EntryList.cons (Entry.file "b.bin" none) EntryList.nil)) []).1 :=
  c1_amended defaultOpts [] "d" "b.bin" "B"
    (EntryList.cons (Entry.file "a.txt" (some "A")) EntryList.nil) EntryList.nil
    (by decide) (by decide) (by decide)
